import Mathlib

/-!
Verification of the book-segmentation core of `splitter.py`:
occurrence scanning (`find_chapter_occurrences`), the two reconciliation
passes (`merge_nearby_occurrences`, `filter_occurrences`), the chapter
materializer (`split_book_into_chapters`) and the `main` pipeline wiring.

Documents are UTF-8 text; lines are 1-indexed, obtained by splitting on
the newline character exactly as Python's `str.split("\n")` does.
Line numbers are natural numbers; they are always at least 1 in the
pipeline, where Lean's truncated subtraction agrees with Python's
integer subtraction in every comparison the code performs.
-/

/-- ASCII decimal digit, the characters matched by the regex class `\d`
on the pipeline's ASCII inputs. -/
def isPyDigit (c : Char) : Bool := '0' ≤ c && c ≤ '9'

/-- ASCII whitespace, the characters matched by the regex class `\s`
(and stripped by `str.strip`) on the pipeline's ASCII inputs. -/
def isPyWs (c : Char) : Bool :=
  c = ' ' || c = '\t' || c = '\n' || c = '\r' || c = '\x0b' || c = '\x0c'

/-- Accumulator-style splitting of a character list at newline characters. -/
def splitLinesAux : List Char → List Char → List String
  | acc, [] => [String.mk acc.reverse]
  | acc, c :: rest =>
      if c = '\n' then String.mk acc.reverse :: splitLinesAux [] rest
      else splitLinesAux (c :: acc) rest

/-- Python's `book_content.split("\n")`: split at every newline; the empty
string yields `[""]`. -/
def pySplitNl (s : String) : List String := splitLinesAux [] s.data

/-- Python's `"\n".join(lines)`. -/
def joinNl : List String → String
  | [] => ""
  | [s] => s
  | s :: rest => s ++ "\n" ++ joinNl rest

/-- Python's `str.strip()`: drop leading and trailing whitespace. -/
def pyStrip (s : String) : String :=
  String.mk (((s.data.dropWhile isPyWs).reverse.dropWhile isPyWs).reverse)

/-- Python's `f"{n:04d}"` for a natural number: zero-pad to width 4. -/
def pad4 (n : Nat) : String :=
  let s := toString n
  String.mk (List.replicate (4 - s.length) '0') ++ s

/-- The chapter key `f"{start_line:04d}_{chapter}"`. -/
def chapterKey (start_line : Nat) (chapter : String) : String :=
  pad4 start_line ++ "_" ++ chapter

/-- Python's slice `lines[a:b]` for non-negative bounds. -/
def sliceLines (lines : List String) (a b : Nat) : List String :=
  (lines.drop a).take (b - a)

/-- Plain prefix test on character lists. -/
def startsWithAux : List Char → List Char → Bool
  | [], _ => true
  | _ :: _, [] => false
  | p :: ps, c :: cs => p = c && startsWithAux ps cs

/-- Case-insensitive prefix test, the `re.IGNORECASE` comparison of the
title text against the scanned line. -/
def startsWithCI (p s : List Char) : Bool :=
  startsWithAux (p.map Char.toLower) (s.map Char.toLower)

/-- Match the regex tail `\s*<title>` against a character list: some prefix
of whitespace characters may be consumed before the title text. -/
def matchTitleAfterWs (title : List Char) : List Char → Bool
  | [] => startsWithCI title []
  | c :: rest => startsWithCI title (c :: rest) || (isPyWs c && matchTitleAfterWs title rest)

/-- Match the regex group `(\d+\.)` at the head of a character list and
return the remainder; `none` when the group cannot match. With a maximal
digit run followed by a dot this is the only consumption the regex engine
can commit to. -/
def dropNumDot (cs : List Char) : Option (List Char) :=
  if (cs.takeWhile isPyDigit).isEmpty then none
  else
    match cs.dropWhile isPyDigit with
    | '.' :: rest => some rest
    | _ => none

/-- `re.search(rf"^(\d+\.)?\s*{re.escape(chapter)}", line, re.IGNORECASE)`:
the optional group either matches the leading `digits.` or is empty. -/
def lineMatches (title line : String) : Bool :=
  matchTitleAfterWs title.data line.data ||
    (match dropNumDot line.data with
     | some rest => matchTitleAfterWs title.data rest
     | none => false)

/-- The scanner's nested loop, `for i, line in enumerate(lines, 1): for
chapter in chapters: ...`, started at line number `n`. -/
def scanFrom (chapters : List String) : Nat → List String → List (String × Nat)
  | _, [] => []
  | n, line :: rest =>
      (chapters.filter (fun chapter => lineMatches chapter line)).map (fun chapter => (chapter, n))
        ++ scanFrom chapters (n + 1) rest

/-- `find_chapter_occurrences` from `splitter.py`. -/
def find_chapter_occurrences (book_content : String) (chapters : List String) :
    List (String × Nat) :=
  scanFrom chapters 1 (pySplitNl book_content)

/-- Body of the `merge_nearby_occurrences` loop; `merged[-1]` is the last
element of the accumulator, consulted only when it is non-empty. -/
def mergeStep (max_gap : Nat) (merged : List (String × Nat)) (p : String × Nat) :
    List (String × Nat) :=
  if merged = [] ∨ p.1 ≠ (merged.getLastD ("", 0)).1 ∨
      p.2 - (merged.getLastD ("", 0)).2 > max_gap
  then merged ++ [p]
  else merged

/-- `merge_nearby_occurrences` from `splitter.py` (default `max_gap` is 10). -/
def merge_nearby_occurrences (occurrences : List (String × Nat)) (max_gap : Nat) :
    List (String × Nat) :=
  occurrences.foldl (mergeStep max_gap) []

/-- Body of the `filter_occurrences` loop over `enumerate(occurrences)`;
`occurrences[i-1]` is an index into the full input list, consulted only
when `i ≥ 1`. -/
def filterLoop (occurrences : List (String × Nat)) (min_gap : Nat) :
    List (Nat × (String × Nat)) → List (String × Nat)
  | [] => []
  | (i, p) :: rest =>
      if i = 0 ∨ p.2 - (occurrences.getD (i - 1) ("", 0)).2 ≥ min_gap
      then p :: filterLoop occurrences min_gap rest
      else filterLoop occurrences min_gap rest

/-- `filter_occurrences` from `splitter.py` (default `min_gap` is 20). -/
def filter_occurrences (occurrences : List (String × Nat)) (min_gap : Nat) :
    List (String × Nat) :=
  filterLoop occurrences min_gap occurrences.enum

/-- `split_book_into_chapters` from `splitter.py`. The Python dict is
modelled by an association list in insertion order; all keys produced on
distinct start lines are distinct. `none` models the `IndexError` that
`chapter_starts[0]` raises on an empty list. -/
def split_book_into_chapters (book_content : String)
    (chapter_starts : List (String × Nat)) : Option (List (String × String)) :=
  let lines := pySplitNl book_content
  match chapter_starts with
  | [] => none
  | first :: _ =>
      let pre : List (String × String) :=
        if first.2 > 1 then
          [("0000_Preface", pyStrip (joinNl (lines.take (first.2 - 1))))]
        else []
      let body : List (String × String) :=
        chapter_starts.enum.map (fun ip =>
          let end_line :=
            if ip.1 < chapter_starts.length - 1 then
              (chapter_starts.getD (ip.1 + 1) ("", 0)).2
            else lines.length
          (chapterKey ip.2.2 ip.2.1,
           pyStrip (joinNl (sliceLines lines (ip.2.2 - 1) end_line))))
      some (pre ++ body)

/-- Outcome of the segmentation part of `main`. -/
inductive PipelineOutcome where
  | noToc : PipelineOutcome
  | indexError : PipelineOutcome
  | ok : List (String × String) → PipelineOutcome
deriving DecidableEq

/-- The segmentation wiring of `main` in `splitter.py`: the extracted TOC
is this function's input (the extractor is an external service); an empty
TOC is reported and stops the run; otherwise scan, merge (gap 10), filter
(gap 20) and materialize unconditionally. -/
def run_segmentation (book_content : String) (chapters : List String) :
    PipelineOutcome :=
  if chapters.isEmpty then PipelineOutcome.noToc
  else
    let occurrences := find_chapter_occurrences book_content chapters
    let merged := merge_nearby_occurrences occurrences 10
    let filtered := filter_occurrences merged 20
    match split_book_into_chapters book_content filtered with
    | none => PipelineOutcome.indexError
    | some m => PipelineOutcome.ok m

/-- Walk description of the merge pass: carry the previously kept
occurrence; keep the next occurrence exactly when nothing has been kept
yet, or its title differs from the previously kept occurrence's title, or
its line number is more than `max_gap` beyond the previously kept
occurrence's line number. -/
def mergeSpecWalk (max_gap : Nat) :
    Option (String × Nat) → List (String × Nat) → List (String × Nat)
  | _, [] => []
  | none, p :: rest => p :: mergeSpecWalk max_gap (some p) rest
  | some q, p :: rest =>
      if p.1 ≠ q.1 ∨ p.2 - q.2 > max_gap then p :: mergeSpecWalk max_gap (some p) rest
      else mergeSpecWalk max_gap (some q) rest

/-- Walk description of the filter pass as the code implements it: carry
the line number of the immediately preceding occurrence of the input
sequence (whether or not it was kept); keep the next occurrence exactly
when it is the first one or its line number is at least `min_gap` beyond
that carried line number. -/
def filterSpecWalk (min_gap : Nat) :
    Option Nat → List (String × Nat) → List (String × Nat)
  | _, [] => []
  | none, p :: rest => p :: filterSpecWalk min_gap (some p.2) rest
  | some prev, p :: rest =>
      if p.2 - prev ≥ min_gap then p :: filterSpecWalk min_gap (some p.2) rest
      else filterSpecWalk min_gap (some p.2) rest

lemma merge_foldl_eq_walk (g : Nat) :
    ∀ (l acc : List (String × Nat)),
      List.foldl (mergeStep g) acc l = acc ++ mergeSpecWalk g acc.getLast? l := by
  intro l
  induction l with
  | nil => intro acc; simp [mergeSpecWalk]
  | cons p l ih =>
    intro acc
    rw [List.foldl_cons]
    by_cases hacc : acc = []
    · subst hacc
      have hstep : mergeStep g [] p = [p] := by simp [mergeStep]
      rw [hstep, ih [p], List.getLast?_singleton]
      simp [mergeSpecWalk]
    · obtain ⟨q, hq⟩ : ∃ q, acc.getLast? = some q := by
        cases h : acc.getLast? with
        | none => exact absurd (List.getLast?_eq_none_iff.mp h) hacc
        | some q => exact ⟨q, rfl⟩
      have hlastD : acc.getLastD ("", 0) = q := by
        rw [List.getLastD_eq_getLast?, hq]; rfl
      rw [hq]
      by_cases hcond : p.1 ≠ q.1 ∨ p.2 - q.2 > g
      · have hstep : mergeStep g acc p = acc ++ [p] := by
          simp only [mergeStep, hlastD]
          rw [if_pos (Or.inr hcond)]
        rw [hstep, ih (acc ++ [p]), List.getLast?_concat]
        simp only [mergeSpecWalk, if_pos hcond, List.append_assoc, List.cons_append,
          List.nil_append]
      · have hstep : mergeStep g acc p = acc := by
          simp only [mergeStep, hlastD]
          rw [if_neg]
          intro h
          rcases h with h | h
          · exact hacc h
          · exact hcond h
        rw [hstep, ih acc, hq]
        simp only [mergeSpecWalk, if_neg hcond]

lemma merge_eq_walk (occs : List (String × Nat)) (g : Nat) :
    merge_nearby_occurrences occs g = mergeSpecWalk g none occs := by
  have h := merge_foldl_eq_walk g occs []
  simpa [merge_nearby_occurrences] using h

lemma mergeSpecWalk_idem (g : Nat) :
    ∀ (l : List (String × Nat)) (acc : Option (String × Nat)),
      mergeSpecWalk g acc (mergeSpecWalk g acc l) = mergeSpecWalk g acc l := by
  intro l
  induction l with
  | nil => intro acc; simp [mergeSpecWalk]
  | cons p l ih =>
    intro acc
    cases acc with
    | none =>
      simp only [mergeSpecWalk]
      rw [ih (some p)]
    | some q =>
      by_cases h : p.1 ≠ q.1 ∨ p.2 - q.2 > g
      · simp only [mergeSpecWalk, if_pos h]
        rw [ih (some p)]
      · simp only [mergeSpecWalk, if_neg h]
        exact ih (some q)

lemma mergeSpecWalk_sublist (g : Nat) :
    ∀ (l : List (String × Nat)) (acc : Option (String × Nat)),
      List.Sublist (mergeSpecWalk g acc l) l := by
  intro l
  induction l with
  | nil => intro acc; simp [mergeSpecWalk]
  | cons p l ih =>
    intro acc
    cases acc with
    | none =>
      simp only [mergeSpecWalk]
      exact (ih (some p)).cons₂ p
    | some q =>
      by_cases h : p.1 ≠ q.1 ∨ p.2 - q.2 > g
      · simp only [mergeSpecWalk, if_pos h]
        exact (ih (some p)).cons₂ p
      · simp only [mergeSpecWalk, if_neg h]
        exact (ih (some q)).cons p

lemma filterSpecWalk_sublist (g : Nat) :
    ∀ (l : List (String × Nat)) (acc : Option Nat),
      List.Sublist (filterSpecWalk g acc l) l := by
  intro l
  induction l with
  | nil => intro acc; simp [filterSpecWalk]
  | cons p l ih =>
    intro acc
    cases acc with
    | none =>
      simp only [filterSpecWalk]
      exact (ih (some p.2)).cons₂ p
    | some prev =>
      by_cases h : p.2 - prev ≥ g
      · simp only [filterSpecWalk, if_pos h]
        exact (ih (some p.2)).cons₂ p
      · simp only [filterSpecWalk, if_neg h]
        exact (ih (some p.2)).cons p

lemma filterLoop_eq_walk (g : Nat) (occs : List (String × Nat)) :
    ∀ (rest pre : List (String × Nat)), occs = pre ++ rest →
      filterLoop occs g (List.enumFrom pre.length rest)
        = filterSpecWalk g (pre.getLast?.map Prod.snd) rest := by
  intro rest
  induction rest with
  | nil => intro pre h; simp [filterLoop, filterSpecWalk, List.enumFrom]
  | cons p r ih =>
    intro pre h
    by_cases hpre : pre = []
    · subst hpre
      have hrec : filterLoop occs g (List.enumFrom 1 r) = filterSpecWalk g (some p.2) r := by
        have hx := ih [p] (by simpa using h)
        simpa using hx
      simp only [List.length_nil, List.enumFrom, filterLoop, List.getLast?_nil,
        Option.map_none]
      rw [if_pos (by simp), hrec]
      simp [filterSpecWalk]
    · obtain ⟨q, hq⟩ : ∃ q, pre.getLast? = some q := by
        cases hx : pre.getLast? with
        | none => exact absurd (List.getLast?_eq_none_iff.mp hx) hpre
        | some q => exact ⟨q, rfl⟩
      have hlen : 1 ≤ pre.length := by
        cases pre with
        | nil => exact absurd rfl hpre
        | cons a l => simp
      have hgetD : occs.getD (pre.length - 1) ("", 0) = q := by
        rw [List.getD_eq_getElem?_getD, h, List.getElem?_append]
        rw [if_pos (by omega)]
        have : pre[pre.length - 1]? = pre.getLast? := (List.getLast?_eq_getElem? pre).symm
        rw [this, hq]
        rfl
      have hrec : filterLoop occs g (List.enumFrom (pre.length + 1) r)
          = filterSpecWalk g (some p.2) r := by
        have hx := ih (pre ++ [p]) (by rw [h, List.append_assoc]; rfl)
        rw [List.getLast?_concat] at hx
        simpa using hx
      simp only [List.enumFrom, filterLoop, hgetD, hq, Option.map_some]
      by_cases hcond : p.2 - q.2 ≥ g
      · rw [if_pos (Or.inr hcond)]
        rw [hrec]
        simp only [filterSpecWalk, if_pos hcond]
      · rw [if_neg (by omega)]
        rw [hrec]
        simp only [filterSpecWalk, if_neg hcond]

lemma filter_eq_walk (occs : List (String × Nat)) (g : Nat) :
    filter_occurrences occs g = filterSpecWalk g none occs := by
  have h := filterLoop_eq_walk g occs occs [] (by simp)
  simpa [filter_occurrences, List.enum_eq_enumFrom] using h

lemma scanFrom_mem (chapters : List String) :
    ∀ (lines : List String) (n : Nat) (c : String) (i : Nat),
      (c, i) ∈ scanFrom chapters n lines ↔
        ∃ k line, lines.get? k = some line ∧ i = n + k ∧ c ∈ chapters ∧
          lineMatches c line = true := by
  intro lines
  induction lines with
  | nil => intro n c i; simp [scanFrom]
  | cons line rest ih =>
    intro n c i
    simp only [scanFrom, List.mem_append, List.mem_map, List.mem_filter]
    constructor
    · rintro (⟨ch, ⟨hch, hm⟩, heq⟩ | hmem)
      · obtain ⟨rfl, rfl⟩ := Prod.mk.injEq ch n c i ▸ heq
        exact ⟨0, line, by simp, by omega, hch, hm⟩
      · obtain ⟨k, l, hget, hik, hc, hm⟩ := (ih (n + 1) c i).mp hmem
        exact ⟨k + 1, l, by simpa using hget, by omega, hc, hm⟩
    · rintro ⟨k, l, hget, hik, hc, hm⟩
      cases k with
      | zero =>
        left
        have hl : line = l := by simpa using hget
        subst hl
        exact ⟨c, ⟨hc, hm⟩, by simp [hik]⟩
      | succ k =>
        right
        exact (ih (n + 1) c i).mpr ⟨k, l, by simpa using hget, by omega, hc, hm⟩

lemma scanFrom_lower (chapters : List String) :
    ∀ (lines : List String) (n : Nat) (p : String × Nat),
      p ∈ scanFrom chapters n lines → n ≤ p.2 := by
  intro lines n p hp
  obtain ⟨c, i⟩ := p
  obtain ⟨k, l, _, hik, _, _⟩ := (scanFrom_mem chapters lines n c i).mp hp
  omega

lemma pairwise_const_line (n : Nat) :
    ∀ (l : List String),
      List.Pairwise (fun a b : String × Nat => a.2 ≤ b.2)
        (l.map (fun chapter => (chapter, n))) := by
  intro l
  induction l with
  | nil => simp
  | cons a l ih =>
    simp only [List.map_cons]
    refine List.Pairwise.cons ?_ ih
    intro b hb
    obtain ⟨ch, _, rfl⟩ := List.mem_map.mp hb
    exact le_refl n

lemma scanFrom_pairwise (chapters : List String) :
    ∀ (lines : List String) (n : Nat),
      List.Pairwise (fun a b : String × Nat => a.2 ≤ b.2) (scanFrom chapters n lines) := by
  intro lines
  induction lines with
  | nil => intro n; simp [scanFrom]
  | cons line rest ih =>
    intro n
    simp only [scanFrom]
    rw [List.pairwise_append]
    refine ⟨pairwise_const_line n _, ih (n + 1), ?_⟩
    intro a ha b hb
    obtain ⟨ch, _, rfl⟩ := List.mem_map.mp ha
    have := scanFrom_lower chapters rest (n + 1) b hb
    omega

lemma startsWithAux_iff : ∀ (p s : List Char),
    startsWithAux p s = true ↔ ∃ t, s = p ++ t := by
  intro p
  induction p with
  | nil => intro s; simp [startsWithAux]
  | cons a p ih =>
    intro s
    cases s with
    | nil => simp [startsWithAux]
    | cons c cs =>
      simp only [startsWithAux, Bool.and_eq_true, decide_eq_true_eq, ih]
      constructor
      · rintro ⟨rfl, t, rfl⟩
        exact ⟨t, rfl⟩
      · rintro ⟨t, ht⟩
        obtain ⟨h1, h2⟩ := List.cons_eq_cons.mp ht
        exact ⟨h1.symm, t, h2⟩

lemma startsWithCI_iff (p s : List Char) :
    startsWithCI p s = true ↔
      ∃ t rest2, s = t ++ rest2 ∧ t.map Char.toLower = p.map Char.toLower := by
  unfold startsWithCI
  rw [startsWithAux_iff]
  constructor
  · rintro ⟨u, hu⟩
    refine ⟨s.take p.length, s.drop p.length, (List.take_append_drop _ s).symm, ?_⟩
    rw [List.map_take, hu]
    have hlen : p.length = (p.map Char.toLower).length := (List.length_map p _).symm
    rw [hlen, List.take_left]
  · rintro ⟨t, rest2, rfl, ht⟩
    refine ⟨rest2.map Char.toLower, ?_⟩
    rw [List.map_append, ht]

lemma matchTitleAfterWs_iff (title : List Char) :
    ∀ (cs : List Char),
      matchTitleAfterWs title cs = true ↔
        ∃ ws rest, cs = ws ++ rest ∧ (∀ c ∈ ws, isPyWs c = true) ∧
          startsWithCI title rest = true := by
  intro cs
  induction cs with
  | nil =>
    simp only [matchTitleAfterWs]
    constructor
    · intro h
      exact ⟨[], [], rfl, by simp, h⟩
    · rintro ⟨ws, rest, heq, _, h⟩
      obtain ⟨rfl, rfl⟩ := List.append_eq_nil.mp heq.symm
      exact h
  | cons c cs ih =>
    simp only [matchTitleAfterWs, Bool.or_eq_true, Bool.and_eq_true]
    constructor
    · rintro (h | ⟨hws, h⟩)
      · exact ⟨[], c :: cs, rfl, by simp, h⟩
      · obtain ⟨ws, rest, heq, hallws, hsw⟩ := ih.mp h
        refine ⟨c :: ws, rest, by rw [List.cons_append, heq], ?_, hsw⟩
        intro x hx
        rcases List.mem_cons.mp hx with rfl | hx
        · exact hws
        · exact hallws x hx
    · rintro ⟨ws, rest, heq, hallws, hsw⟩
      cases ws with
      | nil =>
        left
        rw [List.nil_append] at heq
        rw [heq]
        exact hsw
      | cons w ws =>
        right
        rw [List.cons_append] at heq
        obtain ⟨rfl, h2⟩ := List.cons_eq_cons.mp heq
        refine ⟨hallws c (List.mem_cons_self c ws), ?_⟩
        exact ih.mpr ⟨ws, rest, h2, fun x hx => hallws x (List.mem_cons_of_mem c hx), hsw⟩

lemma takeWhile_all_eq {p : Char → Bool} :
    ∀ (ds : List Char) (x : Char) (r : List Char),
      (∀ c ∈ ds, p c = true) → p x = false →
      (ds ++ x :: r).takeWhile p = ds ∧ (ds ++ x :: r).dropWhile p = x :: r := by
  intro ds
  induction ds with
  | nil =>
    intro x r _ hx
    constructor
    · simp [List.takeWhile_cons, hx]
    · simp [List.dropWhile_cons, hx]
  | cons d ds ih =>
    intro x r hall hx
    have hd : p d = true := hall d (List.mem_cons_self d ds)
    obtain ⟨h1, h2⟩ := ih x r (fun c hc => hall c (List.mem_cons_of_mem d hc)) hx
    constructor
    · simp only [List.cons_append, List.takeWhile_cons, hd, if_pos, h1]
    · simp only [List.cons_append, List.dropWhile_cons, hd, if_pos, h2]

lemma dropNumDot_eq_some_iff (cs : List Char) (r : List Char) :
    dropNumDot cs = some r ↔
      ∃ ds, ds ≠ [] ∧ (∀ c ∈ ds, isPyDigit c = true) ∧ cs = ds ++ '.' :: r := by
  constructor
  · intro h
    unfold dropNumDot at h
    split at h
    · exact absurd h (by simp)
    · rename_i hne
      split at h
      · rename_i rest heqd
        have hr : rest = r := by
          simpa using h
        subst hr
        refine ⟨cs.takeWhile isPyDigit, ?_, ?_, ?_⟩
        · intro hnil
          rw [hnil] at hne
          exact hne rfl
        · intro c hc
          exact List.mem_takeWhile_imp hc
        · conv_lhs => rw [← List.takeWhile_append_dropWhile isPyDigit cs]
          rw [heqd]
      · exact absurd h (by simp)
  · rintro ⟨ds, hne, hall, rfl⟩
    have hdot : isPyDigit '.' = false := by decide
    obtain ⟨h1, h2⟩ := takeWhile_all_eq ds '.' r hall hdot
    unfold dropNumDot
    rw [h1, h2]
    rw [if_neg (by simpa [List.isEmpty_iff] using hne)]
    rfl

/-- The scanner's line test stated declaratively, in the words of §4.2:
the line begins with an optional integer followed by a period, then
optional whitespace, then the title text compared case-insensitively;
the match is anchored at line start and nothing after the title text is
constrained. -/
def SpecMatch (title line : String) : Prop :=
  ∃ numpart ws t rest, line.data = numpart ++ ws ++ t ++ rest ∧
    (numpart = [] ∨
      ∃ ds, ds ≠ [] ∧ (∀ c ∈ ds, isPyDigit c = true) ∧ numpart = ds ++ ['.']) ∧
    (∀ c ∈ ws, isPyWs c = true) ∧
    t.map Char.toLower = title.data.map Char.toLower

lemma matchTitleAfterWs_decomp (title cs : List Char) :
    matchTitleAfterWs title cs = true ↔
      ∃ ws t rest, cs = ws ++ t ++ rest ∧ (∀ c ∈ ws, isPyWs c = true) ∧
        t.map Char.toLower = title.map Char.toLower := by
  rw [matchTitleAfterWs_iff]
  constructor
  · rintro ⟨ws, rest0, heq, hws, hci⟩
    obtain ⟨t, rest, rfl, ht⟩ := (startsWithCI_iff title rest0).mp hci
    exact ⟨ws, t, rest, by rw [heq, List.append_assoc], hws, ht⟩
  · rintro ⟨ws, t, rest, heq, hws, ht⟩
    exact ⟨ws, t ++ rest, by rw [heq, List.append_assoc], hws,
      (startsWithCI_iff title (t ++ rest)).mpr ⟨t, rest, rfl, ht⟩⟩

lemma lineMatches_iff_SpecMatch (title line : String) :
    lineMatches title line = true ↔ SpecMatch title line := by
  unfold lineMatches SpecMatch
  constructor
  · intro h
    cases hd : dropNumDot line.data with
    | none =>
      rw [hd] at h
      simp only [Bool.or_false] at h
      obtain ⟨ws, t, rest, heq, hws, ht⟩ :=
        (matchTitleAfterWs_decomp title.data line.data).mp h
      exact ⟨[], ws, t, rest, by simpa using heq, Or.inl rfl, hws, ht⟩
    | some r =>
      rw [hd] at h
      have h2 : matchTitleAfterWs title.data line.data = true ∨
          matchTitleAfterWs title.data r = true := by
        simpa using h
      rcases h2 with h1 | h1
      · obtain ⟨ws, t, rest, heq, hws, ht⟩ :=
          (matchTitleAfterWs_decomp title.data line.data).mp h1
        exact ⟨[], ws, t, rest, by simpa using heq, Or.inl rfl, hws, ht⟩
      · obtain ⟨ds, hne, hall, hcs⟩ := (dropNumDot_eq_some_iff line.data r).mp hd
        obtain ⟨ws, t, rest, heq, hws, ht⟩ := (matchTitleAfterWs_decomp title.data r).mp h1
        refine ⟨ds ++ ['.'], ws, t, rest, ?_, Or.inr ⟨ds, hne, hall, rfl⟩, hws, ht⟩
        rw [hcs, heq]
        simp [List.append_assoc]
  · rintro ⟨numpart, ws, t, rest, heq, hnum, hws, ht⟩
    rcases hnum with rfl | ⟨ds, hne, hall, rfl⟩
    · have h1 : matchTitleAfterWs title.data line.data = true :=
        (matchTitleAfterWs_decomp title.data line.data).mpr
          ⟨ws, t, rest, by simpa using heq, hws, ht⟩
      simp [h1]
    · have hdrop : dropNumDot line.data = some (ws ++ t ++ rest) :=
        (dropNumDot_eq_some_iff line.data (ws ++ t ++ rest)).mpr
          ⟨ds, hne, hall, by rw [heq]; simp [List.append_assoc]⟩
      rw [hdrop]
      have h1 : matchTitleAfterWs title.data (ws ++ (t ++ rest)) = true := by
        rw [← List.append_assoc]
        exact (matchTitleAfterWs_decomp title.data (ws ++ t ++ rest)).mpr
          ⟨ws, t, rest, rfl, hws, ht⟩
      simp [h1]

/-- C1: the materializer's ranges do not partition the document. At the
document with lines A, B, C, D and the non-empty, strictly ascending,
valid start sequence [(X,1),(Y,3)], line 3 (the text C) is emitted in
both the X range (lines 1-3, from the slice lines[0:3]) and the Y range
(lines 3-4): the ranges overlap and their concatenation in key order
yields five line slots for a four-line document. -/
theorem c1_materializer_overlap_eval :
    split_book_into_chapters "A\nB\nC\nD" [("X", 1), ("Y", 3)]
        = some [("0001_X", "A\nB\nC"), ("0003_Y", "C\nD")] ∧
      (pySplitNl "A\nB\nC").length + (pySplitNl "C\nD").length ≠
        (pySplitNl "A\nB\nC\nD").length := by
  exact ⟨by decide, by decide⟩

/-- C2 counterexample: on the scenario document the default reconciliation
does not leave the scanner's list [(Intro,2),(Middle,5)] unchanged: the
filter pass (minimum gap 20) drops (Middle,5) because 5 - 2 = 3 < 20. -/
theorem c2_counterexample :
    ¬ (filter_occurrences (merge_nearby_occurrences
        (find_chapter_occurrences "CONTENTS\n1. Intro\nbody\nbody\n2. Middle\nbody"
          ["Intro", "Middle"]) 10) 20
      = [("Intro", 2), ("Middle", 5)]) := by
  decide

/-- C2 amended: the scanner yields [(Intro,2),(Middle,5)] and the merge
pass leaves that list unchanged, but the filter pass (default minimum gap
20) drops (Middle,5); the materializer applied to the surviving
[(Intro,2)] produces the keys 0000_Preface (line 1) and 0002_Intro
(lines 2 through 6). -/
theorem c2_amended_eval :
    find_chapter_occurrences "CONTENTS\n1. Intro\nbody\nbody\n2. Middle\nbody"
        ["Intro", "Middle"] = [("Intro", 2), ("Middle", 5)] ∧
      merge_nearby_occurrences [("Intro", 2), ("Middle", 5)] 10
        = [("Intro", 2), ("Middle", 5)] ∧
      filter_occurrences [("Intro", 2), ("Middle", 5)] 20 = [("Intro", 2)] ∧
      split_book_into_chapters "CONTENTS\n1. Intro\nbody\nbody\n2. Middle\nbody"
        [("Intro", 2)]
        = some [("0000_Preface", "CONTENTS"),
                ("0002_Intro", "1. Intro\nbody\nbody\n2. Middle\nbody")] := by
  exact ⟨by decide, by decide, by decide, by decide⟩

/-- C3 counterexample: with occurrences at lines 10, 25 and 40 and
minimum gap 20 the occurrence at line 40 is not kept: the code measures
40 against the previous input occurrence at line 25 (gap 15 < 20), not
against the previous kept occurrence at line 10. -/
theorem c3_counterexample :
    ¬ (("C", 40) ∈ filter_occurrences [("A", 10), ("B", 25), ("C", 40)] 20) := by
  decide

/-- C3 amended: the filter pass keeps an occurrence exactly when it is
the first one or its line number is at least the minimum gap beyond the
line number of the immediately preceding occurrence of the input sequence
(kept or not); on occurrences at lines 10, 25, 40 with minimum gap 20
only line 10 survives. -/
theorem c3_filter_uses_input_predecessor :
    (∀ (occs : List (String × Nat)) (g : Nat),
        filter_occurrences occs g = filterSpecWalk g none occs) ∧
      filter_occurrences [("A", 10), ("B", 25), ("C", 40)] 20 = [("A", 10)] := by
  exact ⟨fun occs g => filter_eq_walk occs g, by decide⟩

/-- C4: an empty occurrence list passes through merge and filter
unchanged, but `main` performs no emptiness check after a non-empty TOC:
on a book whose extracted titles match no line the run still invokes the
materializer on the empty list and reaches the IndexError outcome instead
of a reported no-chapters stop. -/
theorem c4_empty_occurrences_crash :
    (∀ g1 g2 : Nat,
        filter_occurrences (merge_nearby_occurrences [] g1) g2 = []) ∧
      find_chapter_occurrences "alpha\nbeta" ["Gamma"] = [] ∧
      run_segmentation "alpha\nbeta" ["Gamma"] = PipelineOutcome.indexError := by
  exact ⟨fun g1 g2 => rfl, by decide, by decide⟩

/-- C5: the scanner records an occurrence (title, i) exactly when the
title is a candidate and line i of the document matches the anchored
pattern optional-integer-period, optional whitespace, then the title
text, case-insensitively; a title occurring only mid-line (the line
"the Intro was memorable" for title Intro) produces no occurrence. -/
theorem c5_scanner_anchored_match :
    (∀ (book : String) (chapters : List String) (title : String) (i : Nat),
        (title, i) ∈ find_chapter_occurrences book chapters ↔
          title ∈ chapters ∧ 1 ≤ i ∧
            ∃ line, (pySplitNl book).get? (i - 1) = some line ∧ SpecMatch title line) ∧
      find_chapter_occurrences "the Intro was memorable" ["Intro"] = [] := by
  constructor
  · intro book chapters title i
    unfold find_chapter_occurrences
    rw [scanFrom_mem]
    constructor
    · rintro ⟨k, line, hget, rfl, hc, hm⟩
      refine ⟨hc, by omega, line, ?_, (lineMatches_iff_SpecMatch title line).mp hm⟩
      rw [Nat.add_sub_cancel_left]
      exact hget
    · rintro ⟨hc, hi, line, hget, hm⟩
      exact ⟨i - 1, line, hget, by omega, hc,
        (lineMatches_iff_SpecMatch title line).mpr hm⟩
  · decide

/-- C6: the merge pass equals its walk description: keep an occurrence
exactly when nothing was kept yet, or the title differs from the
immediately preceding kept occurrence's title, or the line number is more
than the window beyond that occurrence's line; two occurrences of one
title at lines 10 and 12 with window 10 collapse to the one at line 10. -/
theorem c6_merge_walk_description :
    (∀ (occs : List (String × Nat)) (g : Nat),
        merge_nearby_occurrences occs g = mergeSpecWalk g none occs) ∧
      merge_nearby_occurrences [("A", 10), ("A", 12)] 10 = [("A", 10)] := by
  exact ⟨fun occs g => merge_eq_walk occs g, by decide⟩

/-- C7: the merge pass is idempotent: applying it twice with the same
window equals applying it once, for every occurrence sequence. -/
theorem c7_merge_idempotent (occs : List (String × Nat)) (g : Nat) :
    merge_nearby_occurrences (merge_nearby_occurrences occs g) g
      = merge_nearby_occurrences occs g := by
  rw [merge_eq_walk, merge_eq_walk]
  exact mergeSpecWalk_idem g occs none

/-- C8: merge and filter return order-preserving subsequences of their
input and never increase its length; consequently the pipeline's
reconciled sequence is a subsequence of the scanner's raw list, each of
its elements is a raw occurrence, and it inherits the raw list's document
order (ascending line numbers). -/
theorem c8_reconciler_subsequence :
    (∀ (occs : List (String × Nat)) (g : Nat),
        List.Sublist (merge_nearby_occurrences occs g) occs ∧
          List.Sublist (filter_occurrences occs g) occs ∧
          (merge_nearby_occurrences occs g).length ≤ occs.length ∧
          (filter_occurrences occs g).length ≤ occs.length) ∧
      (∀ (book : String) (chapters : List String) (g1 g2 : Nat),
        List.Sublist
          (filter_occurrences (merge_nearby_occurrences
            (find_chapter_occurrences book chapters) g1) g2)
          (find_chapter_occurrences book chapters) ∧
        (∀ p, p ∈ filter_occurrences (merge_nearby_occurrences
            (find_chapter_occurrences book chapters) g1) g2 →
          p ∈ find_chapter_occurrences book chapters) ∧
        List.Pairwise (fun a b : String × Nat => a.2 ≤ b.2)
          (filter_occurrences (merge_nearby_occurrences
            (find_chapter_occurrences book chapters) g1) g2)) := by
  have hm : ∀ (occs : List (String × Nat)) (g : Nat),
      List.Sublist (merge_nearby_occurrences occs g) occs := by
    intro occs g
    rw [merge_eq_walk]
    exact mergeSpecWalk_sublist g occs none
  have hf : ∀ (occs : List (String × Nat)) (g : Nat),
      List.Sublist (filter_occurrences occs g) occs := by
    intro occs g
    rw [filter_eq_walk]
    exact filterSpecWalk_sublist g occs none
  refine ⟨fun occs g =>
    ⟨hm occs g, hf occs g, (hm occs g).length_le, (hf occs g).length_le⟩, ?_⟩
  intro book chapters g1 g2
  have hsub : List.Sublist
      (filter_occurrences (merge_nearby_occurrences
        (find_chapter_occurrences book chapters) g1) g2)
      (find_chapter_occurrences book chapters) :=
    (hf (merge_nearby_occurrences (find_chapter_occurrences book chapters) g1) g2).trans
      (hm (find_chapter_occurrences book chapters) g1)
  refine ⟨hsub, fun p hp => List.Sublist.mem hp hsub, ?_⟩
  exact List.Pairwise.sublist hsub
    (scanFrom_pairwise chapters (pySplitNl book) 1)

/-- C9: the materializer reads the first chapter start unconditionally:
on an empty start list it fails (the IndexError, modelled as `none`)
rather than returning an empty mapping, and it is total on every
non-empty start list. -/
theorem c9_materializer_empty_fails :
    (∀ book : String, split_book_into_chapters book [] = none) ∧
      (∀ (book : String) (starts : List (String × Nat)),
        starts ≠ [] → (split_book_into_chapters book starts).isSome = true) := by
  constructor
  · intro book
    rfl
  · intro book starts hne
    cases starts with
    | nil => exact absurd rfl hne
    | cons a l => rfl

/-- C9 witness: the materializer fails on the empty start list of a
concrete document and succeeds on a concrete non-empty one. -/
theorem c9_materializer_empty_fails_witness :
    split_book_into_chapters "a\nb" [] = none ∧
      (split_book_into_chapters "a\nb" [("X", 1)]).isSome = true :=
  ⟨c9_materializer_empty_fails.1 "a\nb",
    c9_materializer_empty_fails.2 "a\nb" [("X", 1)] (by decide)⟩

/-- C10: the scanner's comparison requires no boundary after the title
text: every line beginning with the title text matches, whatever follows;
with candidate title Intro, a document whose first line begins with
Introduction yields the occurrence (Intro, 1). -/
theorem c10_prefix_match_no_boundary :
    (∀ title suffix : String, lineMatches title (title ++ suffix) = true) ∧
      find_chapter_occurrences "Introduction to topology" ["Intro"]
        = [("Intro", 1)] := by
  constructor
  · intro title suffix
    unfold lineMatches
    have h1 : matchTitleAfterWs title.data (title.data ++ suffix.data) = true := by
      apply (matchTitleAfterWs_decomp title.data (title.data ++ suffix.data)).mpr
      exact ⟨[], title.data, suffix.data, by simp, by simp, rfl⟩
    simp [String.data_append, h1]
  · decide
